import Mathlib

/-!
# orderedWorkerPool: the reorder engine, the completion tracker and the worker

A shallow embedding of `workerPool.go`.

* Go's `int` is embedded as `Int`.  The only arithmetic the program does on
  ids is `cursor + 1`, and `cursor` is always the id of the last record sent,
  which is one less than the number of records sent so far
  (`cursor_succ_le_arrivals` below); so `cursor + 1` can leave the 64-bit range only
  after `2 ^ 63` records have been received.
* A channel is embedded as the list of values that travel through it, oldest
  first.  A goroutine that ranges over a channel is a fold over that list.
* `sort.Slice` belongs to Go's standard library.  Its contract is that the
  slice is rearranged (a permutation) so that `less` never holds between a
  later and an earlier element; it is not stable.  The development is
  parametric in any function with that contract (`SliceSort`), and
  `insertionSliceSort` is an executable instance.
-/

namespace OrderedWorkerPool

/-! ## Data model -/

/-- Go: `type Result struct { Id int; Value interface{} }`. -/
structure Result (α : Type) where
  Id : Int
  Value : α
deriving DecidableEq, Repr

/-- Go: `type Task struct { id int; args []interface{}; f func(args ...interface{}) interface{} }`.
The argument slice is a value of type `α`, the callable a total function. -/
structure Task (α β : Type) where
  id : Int
  args : α
  f : α → β

/-- Go: `func NewTask(id, args, f) *Task { return &Task{id, args, f} }`. -/
def NewTask {α β : Type} (id : Int) (args : α) (f : α → β) : Task α β :=
  ⟨id, args, f⟩

/-! ## `sort.Slice` -/

/-- The comparison `resultHandler` passes to `sort.Slice`:
`resCache[i].Id < resCache[j].Id`. -/
def less {α : Type} (a b : Result α) : Prop := a.Id < b.Id

instance {α : Type} (a b : Result α) : Decidable (less a b) :=
  inferInstanceAs (Decidable (a.Id < b.Id))

/-- The contract of `sort.Slice(resCache, less)`: the result is a permutation
of the slice in which no later element is `less` than an earlier one. -/
structure SliceSort (α : Type) where
  sortSlice : List (Result α) → List (Result α)
  perm : ∀ l, (sortSlice l).Perm l
  ordered : ∀ l, (sortSlice l).Pairwise (fun a b => ¬ less b a)

/-- An executable `sort.Slice`: insertion sort on the ids. -/
def insertionSliceSort (α : Type) : SliceSort α where
  sortSlice l := l.insertionSort (fun a b => a.Id ≤ b.Id)
  perm l := List.perm_insertionSort _ l
  ordered l := by
    haveI : IsTotal (Result α) (fun a b => a.Id ≤ b.Id) := ⟨fun a b => Int.le_total a.Id b.Id⟩
    haveI : IsTrans (Result α) (fun a b => a.Id ≤ b.Id) := ⟨fun a b c => Int.le_trans⟩
    exact (List.sorted_insertionSort (fun a b : Result α => a.Id ≤ b.Id) l).imp
      (fun h => Int.not_lt.mpr h)

/-! ## `worker` -/

/-- What a worker sends: a `Result` on `resultCh` or a boolean on `doneCh`. -/
inductive WorkerSend (β : Type) where
  | onResultCh (r : Result β)
  | onDoneCh (b : Bool)
deriving DecidableEq, Repr

/-- Go:
```
for t := range taskCh { resultCh <- &Result{Id: t.id, Value: t.f(t.args...)} }
doneCh <- true
```
The argument is the sequence of tasks this worker takes from `taskCh` before
the channel is closed and drained; the value is the sequence of its sends. -/
def worker {α β : Type} : List (Task α β) → List (WorkerSend β)
  | [] => [WorkerSend.onDoneCh true]
  | t :: ts => WorkerSend.onResultCh ⟨t.id, t.f t.args⟩ :: worker ts

/-! ## `resultHandler` -/

/-- The state of `resultHandler`: its two local variables, the records sent
on `ordResCh` so far (oldest first), and whether `ordResCh` has been closed. -/
structure HandlerState (α : Type) where
  cursor : Int
  resCache : List (Result α)
  ordResCh : List (Result α)
  closed : Bool
deriving DecidableEq, Repr

/-- Go: `cursor := -1; resCache := make([]*Result, 0)`. -/
def HandlerState.init {α : Type} : HandlerState α :=
  ⟨-1, [], [], false⟩

/-- Go:
```
for len(resCache) > 0 && resCache[0].Id == (cursor+1) {
  result := resCache[0]; resCache = resCache[1:]
  cursor = result.Id; ordResCh <- result
}
```
The loop runs on the cache, which shrinks at every iteration. -/
def drain {α : Type} (cursor : Int) (sent : List (Result α)) :
    List (Result α) → Int × List (Result α) × List (Result α)
  | [] => (cursor, [], sent)
  | r :: rest =>
    if r.Id = cursor + 1 then drain r.Id (sent ++ [r]) rest
    else (cursor, r :: rest, sent)

/-- One iteration of `for result := range resCh`. -/
def handle {α : Type} (S : SliceSort α) (st : HandlerState α) (result : Result α) :
    HandlerState α :=
  if st.cursor + 1 = result.Id then
    let d := drain result.Id (st.ordResCh ++ [result]) st.resCache
    ⟨d.1, d.2.1, d.2.2, st.closed⟩
  else
    let d := drain st.cursor st.ordResCh (S.sortSlice (st.resCache ++ [result]))
    ⟨d.1, d.2.1, d.2.2, st.closed⟩

/-- The state after the records of `arrivals` have been received, in that
order, from `resCh`. -/
def handlerAfter {α : Type} (S : SliceSort α) (arrivals : List (Result α)) : HandlerState α :=
  arrivals.foldl (handle S) HandlerState.init

/-- Go: `resultHandler(resCh, ordResCh)`, for a channel `resCh` that delivers
`arrivals` and is then closed: the loop, then `close(ordResCh)`. -/
def resultHandler {α : Type} (S : SliceSort α) (arrivals : List (Result α)) : HandlerState α :=
  { handlerAfter S arrivals with closed := true }

/-- The ids `0, 1, ..., m-1`. -/
def idsUpTo (m : Nat) : List Int := (List.range m).map (fun n : Nat => (n : Int))

/-! ## `workerDoneHandler` -/

/-- The state of `workerDoneHandler`: its counter and how many times it has
executed `close(doneCh)` and `close(resCh)` (a second `close` of a channel
panics in Go). -/
structure DoneState where
  doneCount : Int
  doneChCloses : Nat
  resChCloses : Nat
deriving DecidableEq, Repr

/-- Go: `doneCount := 0`. -/
def DoneState.init : DoneState := ⟨0, 0, 0⟩

/-- One iteration of `for range doneCh`:
`doneCount++; if doneCount == wc { close(doneCh); close(resCh) }`. -/
def doneStep (wc : Int) (st : DoneState) (_signal : Bool) : DoneState :=
  if st.doneCount + 1 = wc then
    ⟨st.doneCount + 1, st.doneChCloses + 1, st.resChCloses + 1⟩
  else
    ⟨st.doneCount + 1, st.doneChCloses, st.resChCloses⟩

/-- Go: `workerDoneHandler(doneCh, wc, resCh)` after it has received `signals`
from `doneCh`. -/
def workerDoneHandler (wc : Int) (signals : List Bool) : DoneState :=
  signals.foldl (doneStep wc) DoneState.init

/-! ## `New` -/

/-- What `New` sets up: the capacities of the four channels, the count handed
to `workerDoneHandler`, and the number of `worker` goroutines started. -/
structure Pool where
  taskChCap : Nat
  resultChCap : Nat
  orderedResChCap : Nat
  doneChCap : Nat
  wc : Int
  workers : Nat
deriving DecidableEq, Repr

/-- Go: `New(workerCnt)`.  `make(chan bool, workerCnt)` panics at run time when
the capacity is negative; otherwise the three handlers are started, the loop
`for i := 0; i < workerCnt; i++` starts `workerCnt` workers, and the two
channel ends are returned.  The signature has no error result. -/
def New (workerCnt : Int) : Except String Pool :=
  if workerCnt < 0 then
    Except.error "makechan: size out of range"
  else
    Except.ok ⟨10, 10, 10, workerCnt.toNat, workerCnt, workerCnt.toNat⟩

/-- The signals that reach `doneCh` in a pool: every started worker sends
`true` once, when `taskCh` is closed and drained (see `worker`). -/
def Pool.doneSignals (p : Pool) : List Bool := List.replicate p.workers true

/-! ## The invariant of the reorder loop -/

/-- What holds of the state of `resultHandler` between two iterations of its
outer loop, once the records of `arrivals` have been received: the ids sent
are `0, 1, ..., m-1`, `cursor` is `m - 1`, the cache is in ascending id order
and its first record is not the next one expected, and the records sent
together with the cached ones are the records received. -/
structure HandlerInv {α : Type} (st : HandlerState α) (arrivals : List (Result α)) : Prop where
  ids : st.ordResCh.map Result.Id = idsUpTo st.ordResCh.length
  cursor : st.cursor = (st.ordResCh.length : Int) - 1
  sorted : st.resCache.Pairwise (fun a b => a.Id ≤ b.Id)
  stuck : ∀ r ∈ st.resCache.head?, r.Id ≠ st.cursor + 1
  conserve : (st.ordResCh ++ st.resCache).Perm arrivals

/-! ## Lemmas on `idsUpTo` -/

theorem idsUpTo_length (m : Nat) : (idsUpTo m).length = m := by
  simp [idsUpTo]

theorem idsUpTo_succ (m : Nat) : idsUpTo (m + 1) = idsUpTo m ++ [(m : Int)] := by
  simp [idsUpTo, List.range_succ]

theorem mem_idsUpTo {m : Nat} {i : Int} : i ∈ idsUpTo m ↔ 0 ≤ i ∧ i < m := by
  simp only [idsUpTo, List.mem_map, List.mem_range]
  constructor
  · rintro ⟨n, hn, rfl⟩
    exact ⟨Int.ofNat_nonneg n, by exact_mod_cast hn⟩
  · rintro ⟨h0, hlt⟩
    refine ⟨i.toNat, ?_, ?_⟩
    · omega
    · simp [Int.toNat_of_nonneg h0]

theorem idsUpTo_nodup (m : Nat) : (idsUpTo m).Nodup := by
  unfold idsUpTo
  exact (List.nodup_range m).map (fun a b h => by simpa using h)

theorem idsUpTo_sorted (m : Nat) : (idsUpTo m).Pairwise (fun a b => a < b) := by
  unfold idsUpTo
  rw [List.pairwise_map]
  exact (List.pairwise_lt_range m).imp (fun h => by exact_mod_cast h)

/-! ## The drain loop -/

theorem drain_append {α : Type} (cache : List (Result α)) (c : Int) (sent : List (Result α)) :
    (drain c sent cache).2.2 ++ (drain c sent cache).2.1 = sent ++ cache := by
  induction cache generalizing c sent with
  | nil => simp [drain]
  | cons r rest ih =>
    unfold drain
    split
    · rw [ih]; simp
    · rfl

theorem drain_suffix {α : Type} (cache : List (Result α)) (c : Int) (sent : List (Result α)) :
    (drain c sent cache).2.1 <:+ cache := by
  induction cache generalizing c sent with
  | nil => simp [drain]
  | cons r rest ih =>
    unfold drain
    split
    · exact (ih _ _).trans (List.suffix_cons r rest)
    · exact List.suffix_refl _

theorem drain_prefix {α : Type} (cache : List (Result α)) (c : Int) (sent : List (Result α)) :
    sent <+: (drain c sent cache).2.2 := by
  induction cache generalizing c sent with
  | nil => simp [drain]
  | cons r rest ih =>
    unfold drain
    split
    · exact (List.prefix_append sent [r]).trans (ih _ _)
    · exact List.prefix_refl _

theorem drain_ids {α : Type} (cache : List (Result α)) (c : Int) (sent : List (Result α))
    (hids : sent.map Result.Id = idsUpTo sent.length) (hc : c = (sent.length : Int) - 1) :
    (drain c sent cache).2.2.map Result.Id = idsUpTo (drain c sent cache).2.2.length
      ∧ (drain c sent cache).1 = ((drain c sent cache).2.2.length : Int) - 1 := by
  induction cache generalizing c sent with
  | nil => simp [drain, hids, hc]
  | cons r rest ih =>
    unfold drain
    split
    · rename_i h
      apply ih
      · simp [hids, idsUpTo_succ, h, hc]
      · simp [h, hc]
    · exact ⟨hids, hc⟩

theorem drain_stuck {α : Type} (cache : List (Result α)) (c : Int) (sent : List (Result α)) :
    ∀ r ∈ (drain c sent cache).2.1.head?, r.Id ≠ (drain c sent cache).1 + 1 := by
  induction cache generalizing c sent with
  | nil => simp [drain]
  | cons r rest ih =>
    unfold drain
    split
    · exact ih _ _
    · rename_i h
      simpa using h

/-! ## The reorder loop keeps its invariant -/

theorem handlerInv_init {α : Type} : HandlerInv (HandlerState.init : HandlerState α) [] := by
  constructor <;> simp [HandlerState.init, idsUpTo]

theorem handlerInv_handle {α : Type} (S : SliceSort α) (st : HandlerState α)
    (arrivals : List (Result α)) (r : Result α) (h : HandlerInv st arrivals) :
    HandlerInv (handle S st r) (arrivals ++ [r]) := by
  unfold handle
  split
  · rename_i hr
    have hids : (st.ordResCh ++ [r]).map Result.Id = idsUpTo (st.ordResCh ++ [r]).length := by
      simp [h.ids, idsUpTo_succ, ← hr, h.cursor]
    have hc : r.Id = (((st.ordResCh ++ [r]).length : Nat) : Int) - 1 := by
      simp [← hr, h.cursor]
    have hd := drain_ids st.resCache r.Id (st.ordResCh ++ [r]) hids hc
    refine ⟨hd.1, hd.2, ?_, drain_stuck _ _ _, ?_⟩
    · exact h.sorted.sublist (drain_suffix _ _ _).sublist
    · show ((drain r.Id (st.ordResCh ++ [r]) st.resCache).2.2
          ++ (drain r.Id (st.ordResCh ++ [r]) st.resCache).2.1).Perm (arrivals ++ [r])
      rw [drain_append]
      have h1 : (st.ordResCh ++ [r] ++ st.resCache).Perm (st.ordResCh ++ st.resCache ++ [r]) := by
        rw [List.append_assoc, List.append_assoc]
        exact List.Perm.append_left _ List.perm_append_comm
      exact h1.trans (h.conserve.append_right [r])
  · have hd := drain_ids (S.sortSlice (st.resCache ++ [r])) st.cursor st.ordResCh h.ids h.cursor
    refine ⟨hd.1, hd.2, ?_, drain_stuck _ _ _, ?_⟩
    · have hs : (S.sortSlice (st.resCache ++ [r])).Pairwise (fun a b => a.Id ≤ b.Id) :=
        (S.ordered _).imp (fun hab => Int.not_lt.mp hab)
      exact hs.sublist (drain_suffix _ _ _).sublist
    · show ((drain st.cursor st.ordResCh (S.sortSlice (st.resCache ++ [r]))).2.2
          ++ (drain st.cursor st.ordResCh (S.sortSlice (st.resCache ++ [r]))).2.1).Perm
            (arrivals ++ [r])
      rw [drain_append]
      have h1 : (st.ordResCh ++ S.sortSlice (st.resCache ++ [r])).Perm
          (st.ordResCh ++ (st.resCache ++ [r])) := List.Perm.append_left _ (S.perm _)
      rw [← List.append_assoc] at h1
      exact h1.trans (h.conserve.append_right [r])

theorem handlerAfter_snoc {α : Type} (S : SliceSort α) (arrivals : List (Result α))
    (r : Result α) :
    handlerAfter S (arrivals ++ [r]) = handle S (handlerAfter S arrivals) r := by
  simp [handlerAfter, List.foldl_append]

theorem handlerInv_foldl {α : Type} (S : SliceSort α) (arrivals : List (Result α)) :
    HandlerInv (handlerAfter S arrivals) arrivals := by
  induction arrivals using List.reverseRecOn with
  | nil => exact handlerInv_init
  | append_singleton l r ih =>
    rw [handlerAfter_snoc]
    exact handlerInv_handle S _ l r ih

/-- The successor `cursor + 1` that the loop computes is at most the number of
records received so far: with fewer than `2 ^ 63` arrivals it stays within
Go's 64-bit `int`. -/
theorem cursor_succ_le_arrivals {α : Type} (S : SliceSort α) (arrivals : List (Result α)) :
    0 ≤ (handlerAfter S arrivals).cursor + 1
      ∧ (handlerAfter S arrivals).cursor + 1 ≤ (arrivals.length : Int) := by
  have inv := handlerInv_foldl S arrivals
  have hlen := inv.conserve.length_eq
  rw [List.length_append] at hlen
  rw [inv.cursor]
  omega

/-! ## Arrivals that are a permutation of the ids `0..k-1` -/

theorem handlerAfter_of_perm {α : Type} (S : SliceSort α) (arrivals : List (Result α)) (k : Nat)
    (h : (arrivals.map Result.Id).Perm (idsUpTo k)) :
    (handlerAfter S arrivals).resCache = [] ∧ (handlerAfter S arrivals).ordResCh.length = k := by
  have inv := handlerInv_foldl S arrivals
  generalize handlerAfter S arrivals = st at inv
  obtain ⟨cursor, cache, out, closed⟩ := st
  have hids : out.map Result.Id = idsUpTo out.length := inv.ids
  have hcur : cursor = (out.length : Int) - 1 := inv.cursor
  have hsorted : cache.Pairwise (fun a b => a.Id ≤ b.Id) := inv.sorted
  have hstuck : ∀ r ∈ cache.head?, r.Id ≠ cursor + 1 := inv.stuck
  have hcons : (out ++ cache).Perm arrivals := inv.conserve
  have hp : (idsUpTo out.length ++ cache.map Result.Id).Perm (idsUpTo k) := by
    have := (hcons.map Result.Id).trans h
    rwa [List.map_append, hids] at this
  have hlen : out.length + cache.length = k := by
    have := hp.length_eq
    simpa [idsUpTo_length] using this
  show cache = [] ∧ out.length = k
  cases cache with
  | nil => exact ⟨rfl, by simpa using hlen⟩
  | cons x xs =>
    exfalso
    have hnd : (idsUpTo out.length ++ (x :: xs).map Result.Id).Nodup :=
      hp.nodup_iff.mpr (idsUpTo_nodup k)
    have hdisj := (List.nodup_append.mp hnd).2.2
    have hge : ∀ y ∈ x :: xs, (out.length : Int) ≤ y.Id := by
      intro y hy
      have hyk : y.Id ∈ idsUpTo k :=
        hp.subset (List.mem_append_right _ (List.mem_map_of_mem _ hy))
      have hym : y.Id ∉ idsUpTo out.length := fun hm =>
        hdisj hm (List.mem_map_of_mem _ hy)
      rw [mem_idsUpTo] at hyk hym
      omega
    have hmk : (out.length : Int) ∈ idsUpTo k := by
      rw [mem_idsUpTo]
      simp only [List.length_cons] at hlen
      omega
    have hmem : (out.length : Int) ∈ idsUpTo out.length ++ (x :: xs).map Result.Id :=
      hp.symm.subset hmk
    rcases List.mem_append.mp hmem with hm | hm
    · rw [mem_idsUpTo] at hm
      omega
    · obtain ⟨y, hy, hyid⟩ := List.mem_map.mp hm
      have hxy : x.Id ≤ y.Id := by
        rcases List.mem_cons.mp hy with rfl | hy2
        · exact le_refl _
        · exact (List.pairwise_cons.mp hsorted).1 y hy2
      have hxge := hge x (List.mem_cons_self x xs)
      have hx : x.Id = cursor + 1 := by omega
      exact hstuck x (by simp) hx

theorem sent_ids_sorted {α : Type} (out : List (Result α))
    (h : out.map Result.Id = idsUpTo out.length) : out.Pairwise (fun a b => a.Id < b.Id) := by
  have := idsUpTo_sorted out.length
  rw [← h, List.pairwise_map] at this
  exact this

/-! ## Order and completeness -/

/-- C1 (order).  When the ids of the records that arrive on the unordered
channel are a permutation of `0, ..., k-1`, the records `resultHandler` sends
to the ordered output have the ids `0, 1, ..., k-1` in exactly that order, and
there are exactly `k` of them (none for `k = 0`, one for `k = 1`). -/
theorem resultHandler_order {α : Type} (S : SliceSort α) (k : Nat) (arrivals : List (Result α))
    (h : (arrivals.map Result.Id).Perm (idsUpTo k)) :
    (resultHandler S arrivals).ordResCh.map Result.Id = idsUpTo k
      ∧ (resultHandler S arrivals).ordResCh.length = k := by
  have hf := handlerAfter_of_perm S arrivals k h
  have inv := handlerInv_foldl S arrivals
  refine ⟨?_, hf.2⟩
  show (handlerAfter S arrivals).ordResCh.map Result.Id = idsUpTo k
  rw [inv.ids, hf.2]

theorem resultHandler_order_witness :
    (([⟨2, 20⟩, ⟨0, 0⟩, ⟨3, 30⟩, ⟨1, 10⟩] : List (Result Nat)).map Result.Id).Perm (idsUpTo 4)
      ∧ ((resultHandler (insertionSliceSort Nat)
            [⟨2, 20⟩, ⟨0, 0⟩, ⟨3, 30⟩, ⟨1, 10⟩]).ordResCh.map Result.Id = idsUpTo 4
          ∧ (resultHandler (insertionSliceSort Nat)
            [⟨2, 20⟩, ⟨0, 0⟩, ⟨3, 30⟩, ⟨1, 10⟩]).ordResCh.length = 4) :=
  ⟨by decide, resultHandler_order (insertionSliceSort Nat) 4 _ (by decide)⟩

/-- C2 (completeness).  When the ids of the arrivals are a permutation of
`0, ..., k-1`, the output of `resultHandler` is a permutation of the arrived
records (each record, with the value it arrived with, exactly once and nothing
else), in strictly ascending id order: it is the arrivals sorted by id. -/
theorem resultHandler_complete {α : Type} (S : SliceSort α) (k : Nat)
    (arrivals : List (Result α)) (h : (arrivals.map Result.Id).Perm (idsUpTo k)) :
    (resultHandler S arrivals).ordResCh.Perm arrivals
      ∧ (resultHandler S arrivals).ordResCh.Pairwise (fun a b => a.Id < b.Id)
      ∧ (resultHandler S arrivals).ordResCh = S.sortSlice arrivals := by
  have hf := handlerAfter_of_perm S arrivals k h
  have inv := handlerInv_foldl S arrivals
  have hperm : (handlerAfter S arrivals).ordResCh.Perm arrivals := by
    have := inv.conserve
    rwa [hf.1, List.append_nil] at this
  have hsorted := sent_ids_sorted _ inv.ids
  refine ⟨hperm, hsorted, ?_⟩
  show (handlerAfter S arrivals).ordResCh = S.sortSlice arrivals
  have hnd : (S.sortSlice arrivals).Pairwise (fun a b => a.Id ≠ b.Id) := by
    have h1 : ((S.sortSlice arrivals).map Result.Id).Nodup :=
      (((S.perm arrivals).map Result.Id).trans h).nodup_iff.mpr (idsUpTo_nodup k)
    exact List.pairwise_map.mp h1
  have hs2 : (S.sortSlice arrivals).Pairwise (fun a b => a.Id < b.Id) :=
    ((S.ordered arrivals).and hnd).imp
      (fun hab => lt_of_le_of_ne (Int.not_lt.mp hab.1) hab.2)
  haveI : IsAntisymm (Result α) (fun a b => a.Id < b.Id) :=
    ⟨fun a b hab hba => absurd hab (lt_asymm hba)⟩
  exact List.eq_of_perm_of_sorted (hperm.trans (S.perm arrivals).symm) hsorted hs2

theorem resultHandler_complete_witness :
    (([⟨2, 20⟩, ⟨0, 7⟩, ⟨1, 10⟩] : List (Result Nat)).map Result.Id).Perm (idsUpTo 3)
      ∧ ((resultHandler (insertionSliceSort Nat) [⟨2, 20⟩, ⟨0, 7⟩, ⟨1, 10⟩]).ordResCh.Perm
            [⟨2, 20⟩, ⟨0, 7⟩, ⟨1, 10⟩]
          ∧ (resultHandler (insertionSliceSort Nat)
              [⟨2, 20⟩, ⟨0, 7⟩, ⟨1, 10⟩]).ordResCh.Pairwise (fun a b => a.Id < b.Id)
          ∧ (resultHandler (insertionSliceSort Nat) [⟨2, 20⟩, ⟨0, 7⟩, ⟨1, 10⟩]).ordResCh
              = (insertionSliceSort Nat).sortSlice [⟨2, 20⟩, ⟨0, 7⟩, ⟨1, 10⟩]) :=
  ⟨by decide, resultHandler_complete (insertionSliceSort Nat) 3 _ (by decide)⟩

/-! ## Emission without gaps, for every arrival sequence -/

/-- C3 (no gap).  For every arrival sequence whatsoever (gaps, duplicates and
negative ids included) and after every prefix of it, the ids `resultHandler`
has sent so far are exactly `0, 1, ..., m-1`, in that order, for some `m`; so
wherever a record stands in the output, the records sent before it carry the
ids `0, ..., k-1` and its own id `k` is their number. -/
theorem resultHandler_no_gap {α : Type} (S : SliceSort α) (arrivals : List (Result α))
    (n : Nat) :
    (∃ m : Nat, (handlerAfter S (arrivals.take n)).ordResCh.map Result.Id = idsUpTo m)
      ∧ (∀ (before : List (Result α)) (r : Result α) (later : List (Result α)),
          (handlerAfter S (arrivals.take n)).ordResCh = before ++ r :: later →
            before.map Result.Id = idsUpTo before.length ∧ r.Id = (before.length : Int)) := by
  have inv := handlerInv_foldl S (arrivals.take n)
  refine ⟨⟨_, inv.ids⟩, ?_⟩
  intro before r later hsplit
  have hids := inv.ids
  rw [hsplit] at hids
  have hlen : (before ++ r :: later).length = before.length + (later.length + 1) := by simp
  rw [hlen] at hids
  have hsplit2 : idsUpTo (before.length + (later.length + 1))
      = idsUpTo before.length
        ++ (List.range (later.length + 1)).map (fun i : Nat => ((before.length + i : Nat) : Int)) := by
    simp [idsUpTo, List.range_add, List.map_map, Function.comp_def]
  rw [hsplit2, List.map_append] at hids
  have h1 := List.append_inj hids (by simp [idsUpTo_length])
  refine ⟨h1.1, ?_⟩
  have h2 := h1.2
  rw [List.range_succ_eq_map] at h2
  simpa using (List.cons_eq_cons.mp h2).1

/-- C5 (empty buffer at closure).  When the ids of the arrivals are a
permutation of `0, ..., k-1`, then once the unordered channel is closed
`resCache` is empty and `cursor` is `k - 1` (that is `-1` for `k = 0`), and the
ordered output is closed. -/
theorem resultHandler_empty_at_close {α : Type} (S : SliceSort α) (k : Nat)
    (arrivals : List (Result α)) (h : (arrivals.map Result.Id).Perm (idsUpTo k)) :
    (resultHandler S arrivals).resCache = []
      ∧ (resultHandler S arrivals).cursor = (k : Int) - 1
      ∧ (resultHandler S arrivals).closed = true := by
  have hf := handlerAfter_of_perm S arrivals k h
  have inv := handlerInv_foldl S arrivals
  refine ⟨hf.1, ?_, rfl⟩
  show (handlerAfter S arrivals).cursor = (k : Int) - 1
  rw [inv.cursor, hf.2]

theorem resultHandler_empty_at_close_witness :
    (([⟨1, 10⟩, ⟨2, 20⟩, ⟨0, 0⟩] : List (Result Nat)).map Result.Id).Perm (idsUpTo 3)
      ∧ ((resultHandler (insertionSliceSort Nat) [⟨1, 10⟩, ⟨2, 20⟩, ⟨0, 0⟩]).resCache = []
          ∧ (resultHandler (insertionSliceSort Nat) [⟨1, 10⟩, ⟨2, 20⟩, ⟨0, 0⟩]).cursor
              = ((3 : Nat) : Int) - 1
          ∧ (resultHandler (insertionSliceSort Nat) [⟨1, 10⟩, ⟨2, 20⟩, ⟨0, 0⟩]).closed = true) :=
  ⟨by decide, resultHandler_empty_at_close (insertionSliceSort Nat) 3 _ (by decide)⟩

/-- C9 (cursor).  For every arrival sequence and after every iteration of the
loop of `resultHandler`, `cursor` is the id of the last record sent to the
ordered output, or `-1` when no record has been sent yet. -/
theorem resultHandler_cursor {α : Type} (S : SliceSort α) (arrivals : List (Result α))
    (n : Nat) :
    (handlerAfter S (arrivals.take n)).cursor
      = (((handlerAfter S (arrivals.take n)).ordResCh.getLast?).map Result.Id).getD (-1) := by
  have inv := handlerInv_foldl S (arrivals.take n)
  generalize handlerAfter S (arrivals.take n) = st at inv
  have hids := inv.ids
  rw [inv.cursor]
  rcases List.eq_nil_or_concat st.ordResCh with hnil | ⟨l, x, hl⟩
  · simp [hnil]
  · rw [hl] at hids ⊢
    simp only [List.concat_eq_append, List.length_append, List.length_singleton,
      List.map_append, List.map_cons, List.map_nil, idsUpTo_succ] at hids
    have hx := (List.append_inj' hids (by simp)).2
    simp only [List.cons.injEq, and_true] at hx
    simp [hx]

/-! ## The reorder buffer when ids are distinct and non-negative -/

/-- C10 (reorder buffer).  When the ids of the arrivals are pairwise distinct
and non-negative, then after every iteration of the loop of `resultHandler`
every id held in `resCache` is strictly greater than `cursor`, no two records
of `resCache` have the same id, and the record that arrives next, if it is
buffered rather than sent (its id is not `cursor + 1`), has an id greater than
`cursor + 1`. -/
theorem resultHandler_buffer_inv {α : Type} (S : SliceSort α) (arrivals : List (Result α))
    (hnd : (arrivals.map Result.Id).Nodup) (hnn : ∀ r ∈ arrivals, 0 ≤ r.Id) (n : Nat) :
    (∀ r ∈ (handlerAfter S (arrivals.take n)).resCache,
        (handlerAfter S (arrivals.take n)).cursor < r.Id)
      ∧ ((handlerAfter S (arrivals.take n)).resCache.map Result.Id).Nodup
      ∧ (∀ r, arrivals.get? n = some r →
          r.Id ≠ (handlerAfter S (arrivals.take n)).cursor + 1 →
            (handlerAfter S (arrivals.take n)).cursor + 1 < r.Id) := by
  have inv := handlerInv_foldl S (arrivals.take n)
  generalize handlerAfter S (arrivals.take n) = st at inv
  have hp : (idsUpTo st.ordResCh.length ++ st.resCache.map Result.Id).Perm
      ((arrivals.take n).map Result.Id) := by
    have := inv.conserve.map Result.Id
    rwa [List.map_append, inv.ids] at this
  have htake : ((arrivals.take n).map Result.Id).Nodup :=
    hnd.sublist ((List.take_sublist n arrivals).map Result.Id)
  have hnd2 := hp.nodup_iff.mpr htake
  have hdisj := (List.nodup_append.mp hnd2).2.2
  refine ⟨?_, (List.nodup_append.mp hnd2).2.1, ?_⟩
  · intro r hr
    have h0 : 0 ≤ r.Id := by
      have hmem : r ∈ arrivals.take n :=
        inv.conserve.subset (List.mem_append_right _ hr)
      exact hnn r (List.mem_of_mem_take hmem)
    have hni : r.Id ∉ idsUpTo st.ordResCh.length := fun hm =>
      hdisj hm (List.mem_map_of_mem _ hr)
    rw [mem_idsUpTo] at hni
    rw [inv.cursor]
    omega
  · intro r hr hne
    have hlt : n < arrivals.length := by
      by_contra hge
      rw [List.get?_eq_none.mpr (by omega)] at hr
      exact absurd hr (by simp)
    have hrmem : r ∈ arrivals := List.get?_mem hr
    have h0 : 0 ≤ r.Id := hnn r hrmem
    have hsplit : arrivals = arrivals.take n ++ r :: arrivals.drop (n + 1) := by
      have h1 : arrivals.drop n = r :: arrivals.drop (n + 1) := by
        rw [List.drop_eq_getElem_cons hlt]
        congr 1
        rw [List.get?_eq_getElem?, List.getElem?_eq_getElem hlt] at hr
        exact Option.some.inj hr
      rw [← h1, List.take_append_drop]
    have hnotin : r.Id ∉ (arrivals.take n).map Result.Id := by
      rw [hsplit, List.map_append, List.map_cons] at hnd
      have := (List.nodup_append.mp hnd).2.2
      intro hm
      exact this hm (List.mem_cons_self _ _)
    have hni : r.Id ∉ idsUpTo st.ordResCh.length := fun hm =>
      hnotin (hp.subset (List.mem_append_left _ hm))
    rw [mem_idsUpTo] at hni
    rw [inv.cursor] at hne ⊢
    omega

theorem resultHandler_buffer_inv_witness :
    (([⟨3, 30⟩, ⟨5, 50⟩, ⟨0, 0⟩, ⟨1, 10⟩] : List (Result Nat)).map Result.Id).Nodup
      ∧ (∀ r ∈ ([⟨3, 30⟩, ⟨5, 50⟩, ⟨0, 0⟩, ⟨1, 10⟩] : List (Result Nat)), 0 ≤ r.Id)
      ∧ ((∀ r ∈ (handlerAfter (insertionSliceSort Nat)
              (([⟨3, 30⟩, ⟨5, 50⟩, ⟨0, 0⟩, ⟨1, 10⟩] : List (Result Nat)).take 1)).resCache,
            (handlerAfter (insertionSliceSort Nat)
              (([⟨3, 30⟩, ⟨5, 50⟩, ⟨0, 0⟩, ⟨1, 10⟩] : List (Result Nat)).take 1)).cursor < r.Id)
        ∧ ((handlerAfter (insertionSliceSort Nat)
              (([⟨3, 30⟩, ⟨5, 50⟩, ⟨0, 0⟩, ⟨1, 10⟩] : List (Result Nat)).take 1)).resCache.map
                Result.Id).Nodup
        ∧ (∀ r, ([⟨3, 30⟩, ⟨5, 50⟩, ⟨0, 0⟩, ⟨1, 10⟩] : List (Result Nat)).get? 1 = some r →
            r.Id ≠ (handlerAfter (insertionSliceSort Nat)
              (([⟨3, 30⟩, ⟨5, 50⟩, ⟨0, 0⟩, ⟨1, 10⟩] : List (Result Nat)).take 1)).cursor + 1 →
            (handlerAfter (insertionSliceSort Nat)
              (([⟨3, 30⟩, ⟨5, 50⟩, ⟨0, 0⟩, ⟨1, 10⟩] : List (Result Nat)).take 1)).cursor + 1
                < r.Id)) :=
  ⟨by decide, by decide,
    resultHandler_buffer_inv (insertionSliceSort Nat) _ (by decide) (by decide) 1⟩

/-! ## The completion tracker -/

theorem workerDoneHandler_snoc (wc : Int) (signals : List Bool) (b : Bool) :
    workerDoneHandler wc (signals ++ [b]) = doneStep wc (workerDoneHandler wc signals) b := by
  simp [workerDoneHandler, List.foldl_append]

theorem workerDoneHandler_state (wc : Int) (signals : List Bool) :
    workerDoneHandler wc signals
      = ⟨(signals.length : Int),
          if 1 ≤ wc ∧ wc ≤ (signals.length : Int) then 1 else 0,
          if 1 ≤ wc ∧ wc ≤ (signals.length : Int) then 1 else 0⟩ := by
  induction signals using List.reverseRecOn with
  | nil =>
    have h : ¬ (1 ≤ wc ∧ wc ≤ 0) := by omega
    simp [workerDoneHandler, DoneState.init, h]
  | append_singleton l b ih =>
    rw [workerDoneHandler_snoc, ih]
    unfold doneStep
    simp only [List.length_append, List.length_singleton, Nat.cast_add, Nat.cast_one]
    by_cases h1 : (l.length : Int) + 1 = wc
    · have h2 : ¬ (1 ≤ wc ∧ wc ≤ (l.length : Int)) := by omega
      have h3 : 1 ≤ wc ∧ wc ≤ (l.length : Int) + 1 := by omega
      rw [if_pos h1, if_neg h2, if_pos h3]
    · by_cases h2 : 1 ≤ wc ∧ wc ≤ (l.length : Int)
      · have h3 : 1 ≤ wc ∧ wc ≤ (l.length : Int) + 1 := by omega
        rw [if_neg h1, if_pos h2, if_pos h3]
      · have h3 : ¬ (1 ≤ wc ∧ wc ≤ (l.length : Int) + 1) := by omega
        rw [if_neg h1, if_neg h2, if_neg h3]

/-- C6 (completion tracker).  For every `wc ≥ 1` and whatever signals
`workerDoneHandler` receives: after `n` signals its count is `n`, it has not
executed `close(resCh)` while `n < wc`, and it has executed it exactly once
when `n ≥ wc`; so the close happens in the iteration that receives the
`wc`-th signal, in no other, and never a second time.  In a pool built by
`New wc`, whose `wc` workers send one signal each, the count never exceeds
`wc` and the channel is closed when all the signals are in. -/
theorem workerDoneHandler_closes_once (wc : Int) (hwc : 1 ≤ wc) :
    (∀ (signals : List Bool) (n : Nat), n ≤ signals.length →
        (workerDoneHandler wc (signals.take n)).doneCount = (n : Int)
          ∧ (workerDoneHandler wc (signals.take n)).resChCloses
              = if (n : Int) < wc then 0 else 1)
      ∧ (∀ p : Pool, New wc = Except.ok p →
          (∀ n : Nat, (workerDoneHandler p.wc (p.doneSignals.take n)).doneCount ≤ wc)
            ∧ (workerDoneHandler p.wc p.doneSignals).resChCloses = 1) := by
  constructor
  · intro signals n hn
    rw [workerDoneHandler_state]
    have hlen : (signals.take n).length = n := by simp [hn]
    rw [hlen]
    refine ⟨rfl, ?_⟩
    by_cases h : (n : Int) < wc
    · have h2 : ¬ (1 ≤ wc ∧ wc ≤ (n : Int)) := by omega
      simp [h, h2]
    · have h2 : 1 ≤ wc ∧ wc ≤ (n : Int) := by omega
      simp [h, h2]
  · intro p hp
    have hneg : ¬ wc < 0 := by omega
    simp only [New, hneg, if_false, Except.ok.injEq] at hp
    subst hp
    simp only [Pool.doneSignals]
    constructor
    · intro n
      rw [workerDoneHandler_state]
      simp only [List.length_take, List.length_replicate]
      show ((min n wc.toNat : Nat) : Int) ≤ wc
      omega
    · rw [workerDoneHandler_state]
      have h2 : 1 ≤ wc ∧ wc ≤ ((List.replicate wc.toNat true).length : Int) := by
        simp only [List.length_replicate]
        omega
      simp [h2]

theorem workerDoneHandler_closes_once_witness :
    (1 : Int) ≤ 3
      ∧ ((∀ (signals : List Bool) (n : Nat), n ≤ signals.length →
            (workerDoneHandler 3 (signals.take n)).doneCount = (n : Int)
              ∧ (workerDoneHandler 3 (signals.take n)).resChCloses
                  = if (n : Int) < 3 then 0 else 1)
        ∧ (∀ p : Pool, New 3 = Except.ok p →
            (∀ n : Nat, (workerDoneHandler p.wc (p.doneSignals.take n)).doneCount ≤ 3)
              ∧ (workerDoneHandler p.wc p.doneSignals).resChCloses = 1)) :=
  ⟨by decide, workerDoneHandler_closes_once 3 (by decide)⟩

/-! ## The worker -/

/-- C7 (worker output).  For every finite sequence of tasks a worker takes
from the task channel, each built as `NewTask id args f`, the worker sends one
`Result` per task, in the order taken, with `Id = id` and `Value = f args`, and
after the last of them exactly one signal on the done channel. -/
theorem worker_sends {α β : Type} (specs : List (Int × α × (α → β))) :
    worker (specs.map (fun s => NewTask s.1 s.2.1 s.2.2))
      = specs.map (fun s => WorkerSend.onResultCh ⟨s.1, s.2.2 s.2.1⟩)
          ++ [WorkerSend.onDoneCh true] := by
  induction specs with
  | nil => rfl
  | cons s rest ih =>
    simp only [List.map_cons, worker, List.cons_append, NewTask]
    rw [← ih]
    rfl

/-! ## Construction with a worker count that is not positive -/

theorem handlerAfter_closed {α : Type} (S : SliceSort α) (arrivals : List (Result α)) :
    (handlerAfter S arrivals).closed = false := by
  induction arrivals using List.reverseRecOn with
  | nil => rfl
  | append_singleton l r ih =>
    rw [handlerAfter_snoc]
    unfold handle
    split <;> exact ih

/-- C8, as the code has it.  `New` has no error result.  For `workerCnt = 0`
it returns a pool with no worker, in which no signal ever reaches `doneCh`;
its tracker never executes `close(resCh)` whatever it receives, and
`resultHandler`, as long as its input is not closed, does not close the
ordered output.  For `workerCnt < 0` no pool is returned: construction stops
in `make(chan bool, workerCnt)`, which panics on a negative capacity. -/
theorem New_nonpositive (workerCnt : Int) (h : workerCnt ≤ 0) :
    (workerCnt < 0 ∧ New workerCnt = Except.error "makechan: size out of range")
      ∨ (workerCnt = 0 ∧ ∃ p : Pool, New workerCnt = Except.ok p
          ∧ p.workers = 0 ∧ p.doneSignals = []
          ∧ (∀ signals : List Bool, (workerDoneHandler p.wc signals).resChCloses = 0)
          ∧ (∀ (S : SliceSort Nat) (arrivals : List (Result Nat)),
              (handlerAfter S arrivals).closed = false)) := by
  rcases lt_or_eq_of_le h with hneg | h0
  · left
    exact ⟨hneg, by simp [New, hneg]⟩
  · right
    subst h0
    refine ⟨rfl, ⟨10, 10, 10, 0, 0, 0⟩, rfl, rfl, rfl, ?_,
      fun S arrivals => handlerAfter_closed S arrivals⟩
    intro signals
    rw [workerDoneHandler_state]
    have h2 : ¬ ((1 : Int) ≤ 0 ∧ (0 : Int) ≤ (signals.length : Int)) := by omega
    simp [h2]

theorem New_nonpositive_witness :
    (-2 : Int) ≤ 0
      ∧ (((-2 : Int) < 0 ∧ New (-2) = Except.error "makechan: size out of range")
        ∨ ((-2 : Int) = 0 ∧ ∃ p : Pool, New (-2) = Except.ok p
            ∧ p.workers = 0 ∧ p.doneSignals = []
            ∧ (∀ signals : List Bool, (workerDoneHandler p.wc signals).resChCloses = 0)
            ∧ (∀ (S : SliceSort Nat) (arrivals : List (Result Nat)),
                (handlerAfter S arrivals).closed = false))) :=
  ⟨by decide, New_nonpositive (-2) (by decide)⟩

/-- C8 fails as stated at `workerCnt = 0`: `New 0` is not rejected, it returns
a pool that has no worker, receives no signal, and has not closed the
unordered result channel. -/
theorem New_zero_not_rejected :
    New 0 = Except.ok ⟨10, 10, 10, 0, 0, 0⟩
      ∧ (⟨10, 10, 10, 0, 0, 0⟩ : Pool).doneSignals = []
      ∧ (workerDoneHandler 0 []).resChCloses = 0 :=
  ⟨rfl, rfl, rfl⟩

/-! ## The buffer is sorted, and no record is lost -/

/-- C11 (sorted buffer).  For every arrival sequence and after every iteration
of the loop of `resultHandler`, `resCache` is in ascending order of `Id`; so
its first element, the one the drain loop inspects, has the least id of the
buffer. -/
theorem resultHandler_cache_sorted {α : Type} (S : SliceSort α) (arrivals : List (Result α))
    (n : Nat) :
    (handlerAfter S (arrivals.take n)).resCache.Pairwise (fun a b => a.Id ≤ b.Id)
      ∧ (∀ x ∈ (handlerAfter S (arrivals.take n)).resCache.head?,
          ∀ y ∈ (handlerAfter S (arrivals.take n)).resCache, x.Id ≤ y.Id) := by
  have inv := handlerInv_foldl S (arrivals.take n)
  refine ⟨inv.sorted, ?_⟩
  intro x hx y hy
  have hsorted := inv.sorted
  cases hc : (handlerAfter S (arrivals.take n)).resCache with
  | nil => rw [hc] at hy; exact absurd hy (List.not_mem_nil y)
  | cons a l =>
    rw [hc] at hx hy hsorted
    simp only [List.head?_cons, Option.mem_def, Option.some.injEq] at hx
    subst hx
    rcases List.mem_cons.mp hy with rfl | hy2
    · exact le_refl _
    · exact (List.pairwise_cons.mp hsorted).1 y hy2

/-- C15 (conservation).  For every arrival sequence whatsoever and after every
iteration of the loop of `resultHandler`, the records sent so far together
with the records in `resCache` are, as a multiset, exactly the records
received so far: none is dropped, none is sent or stored twice. -/
theorem resultHandler_conservation {α : Type} (S : SliceSort α) (arrivals : List (Result α))
    (n : Nat) :
    ((handlerAfter S (arrivals.take n)).ordResCh
        ++ (handlerAfter S (arrivals.take n)).resCache).Perm (arrivals.take n)
      ∧ (handlerAfter S (arrivals.take n)).ordResCh.length
          + (handlerAfter S (arrivals.take n)).resCache.length = (arrivals.take n).length := by
  have inv := handlerInv_foldl S (arrivals.take n)
  refine ⟨inv.conserve, ?_⟩
  have := inv.conserve.length_eq
  rwa [List.length_append] at this

/-! ## Arrival in order: the fast path -/

theorem eq_of_perm_of_ids_lt {α : Type} (l₁ l₂ : List (Result α)) (hp : l₁.Perm l₂)
    (h₁ : l₁.Pairwise (fun a b => a.Id < b.Id)) (h₂ : l₂.Pairwise (fun a b => a.Id < b.Id)) :
    l₁ = l₂ := by
  haveI : IsAntisymm (Result α) (fun a b => a.Id < b.Id) :=
    ⟨fun a b hab hba => absurd hab (lt_asymm hba)⟩
  exact List.eq_of_perm_of_sorted hp h₁ h₂

theorem idsUpTo_take (k n : Nat) (h : n ≤ k) : (idsUpTo k).take n = idsUpTo n := by
  unfold idsUpTo
  rw [← List.map_take, List.take_range, Nat.min_eq_left h]

/-- C14 (fast path).  For every `k`, when the records arrive in the order
`0, 1, ..., k-1`, then after every iteration the records sent are exactly the
records received so far, in their order of arrival (so each record is sent in
the very iteration in which it arrives), `resCache` is empty and `cursor` is
the id of the last arrival. -/
theorem resultHandler_fast_path {α : Type} (S : SliceSort α) (k : Nat)
    (arrivals : List (Result α)) (h : arrivals.map Result.Id = idsUpTo k) (n : Nat)
    (hn : n ≤ k) :
    handlerAfter S (arrivals.take n) = ⟨(n : Int) - 1, [], arrivals.take n, false⟩ := by
  have hids : (arrivals.take n).map Result.Id = idsUpTo n := by
    rw [List.map_take, h, idsUpTo_take k n hn]
  have hf := handlerAfter_of_perm S (arrivals.take n) n (by rw [hids])
  have inv := handlerInv_foldl S (arrivals.take n)
  have hclosed := handlerAfter_closed S (arrivals.take n)
  generalize handlerAfter S (arrivals.take n) = st at hf inv hclosed
  obtain ⟨cursor, cache, out, closed⟩ := st
  have hcache : cache = [] := hf.1
  have hlen : out.length = n := hf.2
  have hcur : cursor = (out.length : Int) - 1 := inv.cursor
  have hcl : closed = false := hclosed
  have hperm : (out ++ cache).Perm (arrivals.take n) := inv.conserve
  rw [hcache, List.append_nil] at hperm
  have hs1 : out.Pairwise (fun a b => a.Id < b.Id) := sent_ids_sorted out inv.ids
  have hs2 : (arrivals.take n).Pairwise (fun a b => a.Id < b.Id) := by
    have := idsUpTo_sorted n
    rw [← hids, List.pairwise_map] at this
    exact this
  have hout := eq_of_perm_of_ids_lt _ _ hperm hs1 hs2
  rw [hcur, hlen, hcache, hout, hcl]

theorem resultHandler_fast_path_witness :
    ([⟨0, 5⟩, ⟨1, 6⟩, ⟨2, 7⟩] : List (Result Nat)).map Result.Id = idsUpTo 3
      ∧ 2 ≤ 3
      ∧ handlerAfter (insertionSliceSort Nat)
          (([⟨0, 5⟩, ⟨1, 6⟩, ⟨2, 7⟩] : List (Result Nat)).take 2)
        = ⟨((2 : Nat) : Int) - 1, [], ([⟨0, 5⟩, ⟨1, 6⟩, ⟨2, 7⟩] : List (Result Nat)).take 2,
            false⟩ :=
  ⟨by decide, by decide,
    resultHandler_fast_path (insertionSliceSort Nat) 3 _ (by decide) 2 (by decide)⟩

/-! ## Arrival in reverse order -/

theorem mem_idsUpTo_drop {k j : Nat} {i : Int} (h : i ∈ (idsUpTo k).drop j) : (j : Int) ≤ i := by
  rw [List.mem_drop_iff_getElem] at h
  obtain ⟨t, ht, rfl⟩ := h
  simp only [idsUpTo, List.getElem_map, List.getElem_range]
  omega

/-- C12 (reverse order).  For every `k ≥ 1`, when the records arrive in the
order `k-1, k-2, ..., 1, 0`: during the first `k-1` arrivals nothing is sent
and the buffer holds all the records received so far; in the iteration that
receives id `0`, the last one, all `k` records are sent, in ascending id order
`0..k-1` (the reverse of the order of arrival), and the buffer is left
empty. -/
theorem resultHandler_reverse_order {α : Type} (S : SliceSort α) (k : Nat) (hk : 1 ≤ k)
    (arrivals : List (Result α)) (h : arrivals.map Result.Id = (idsUpTo k).reverse) :
    (∀ n : Nat, n < k →
        (handlerAfter S (arrivals.take n)).ordResCh = []
          ∧ (handlerAfter S (arrivals.take n)).resCache.Perm (arrivals.take n)
          ∧ (handlerAfter S (arrivals.take n)).resCache.length = n)
      ∧ (arrivals.drop (k - 1)).map Result.Id = [0]
      ∧ (handlerAfter S arrivals).ordResCh = arrivals.reverse
      ∧ (handlerAfter S arrivals).ordResCh.map Result.Id = idsUpTo k
      ∧ (handlerAfter S arrivals).resCache = [] := by
  have hlen : arrivals.length = k := by
    have := congrArg List.length h
    simpa [idsUpTo_length] using this
  have hlast : (arrivals.drop (k - 1)).map Result.Id = [0] := by
    have h1 : k - (k - 1) = 1 := by omega
    rw [List.map_drop, h, List.drop_reverse, idsUpTo_length, h1, idsUpTo_take k 1 hk]
    rfl
  refine ⟨?_, hlast, ?_⟩
  · intro n hn
    have inv := handlerInv_foldl S (arrivals.take n)
    have hout : (handlerAfter S (arrivals.take n)).ordResCh = [] := by
      cases hc : (handlerAfter S (arrivals.take n)).ordResCh with
      | nil => rfl
      | cons x xs =>
        exfalso
        have hids := inv.ids
        rw [hc] at hids
        have h0 : (0 : Int) ∈ (x :: xs).map Result.Id := by
          rw [hids, mem_idsUpTo]
          simp
        obtain ⟨y, hy, hy0⟩ := List.mem_map.mp h0
        have hy2 : y ∈ arrivals.take n :=
          inv.conserve.subset (List.mem_append_left _ (hc ▸ hy))
        have hy3 : y.Id ∈ (arrivals.take n).map Result.Id := List.mem_map_of_mem _ hy2
        rw [List.map_take, h, List.take_reverse, List.mem_reverse, idsUpTo_length] at hy3
        have := mem_idsUpTo_drop hy3
        omega
    have hperm := inv.conserve
    rw [hout, List.nil_append] at hperm
    refine ⟨hout, hperm, ?_⟩
    rw [hperm.length_eq, List.length_take, hlen]
    omega
  · have hp : (arrivals.map Result.Id).Perm (idsUpTo k) := by
      rw [h]
      exact List.reverse_perm _
    have hf := handlerAfter_of_perm S arrivals k hp
    have inv := handlerInv_foldl S arrivals
    have hids : (handlerAfter S arrivals).ordResCh.map Result.Id = idsUpTo k := by
      rw [inv.ids, hf.2]
    refine ⟨?_, hids, hf.1⟩
    have hperm : (handlerAfter S arrivals).ordResCh.Perm arrivals.reverse := by
      have := inv.conserve
      rw [hf.1, List.append_nil] at this
      exact this.trans (List.reverse_perm arrivals).symm
    have hs2 : arrivals.reverse.Pairwise (fun a b => a.Id < b.Id) := by
      have := idsUpTo_sorted k
      have hrev : arrivals.reverse.map Result.Id = idsUpTo k := by
        rw [List.map_reverse, h, List.reverse_reverse]
      rw [← hrev, List.pairwise_map] at this
      exact this
    exact eq_of_perm_of_ids_lt _ _ hperm (sent_ids_sorted _ inv.ids) hs2

theorem resultHandler_reverse_order_witness :
    1 ≤ 3
      ∧ ([⟨2, 20⟩, ⟨1, 10⟩, ⟨0, 5⟩] : List (Result Nat)).map Result.Id = (idsUpTo 3).reverse
      ∧ ((∀ n : Nat, n < 3 →
            (handlerAfter (insertionSliceSort Nat)
                (([⟨2, 20⟩, ⟨1, 10⟩, ⟨0, 5⟩] : List (Result Nat)).take n)).ordResCh = []
              ∧ (handlerAfter (insertionSliceSort Nat)
                  (([⟨2, 20⟩, ⟨1, 10⟩, ⟨0, 5⟩] : List (Result Nat)).take n)).resCache.Perm
                    (([⟨2, 20⟩, ⟨1, 10⟩, ⟨0, 5⟩] : List (Result Nat)).take n)
              ∧ (handlerAfter (insertionSliceSort Nat)
                  (([⟨2, 20⟩, ⟨1, 10⟩, ⟨0, 5⟩] : List (Result Nat)).take n)).resCache.length = n)
        ∧ (([⟨2, 20⟩, ⟨1, 10⟩, ⟨0, 5⟩] : List (Result Nat)).drop (3 - 1)).map Result.Id = [0]
        ∧ (handlerAfter (insertionSliceSort Nat) [⟨2, 20⟩, ⟨1, 10⟩, ⟨0, 5⟩]).ordResCh
            = ([⟨2, 20⟩, ⟨1, 10⟩, ⟨0, 5⟩] : List (Result Nat)).reverse
        ∧ (handlerAfter (insertionSliceSort Nat) [⟨2, 20⟩, ⟨1, 10⟩, ⟨0, 5⟩]).ordResCh.map
            Result.Id = idsUpTo 3
        ∧ (handlerAfter (insertionSliceSort Nat) [⟨2, 20⟩, ⟨1, 10⟩, ⟨0, 5⟩]).resCache = []) :=
  ⟨by decide, by decide,
    resultHandler_reverse_order (insertionSliceSort Nat) 3 (by decide) _ (by decide)⟩

/-! ## An id that never arrives -/

/-- C13 (missing id).  When the ids of the arrivals are pairwise distinct and
non-negative and `g` is the least id that never arrives, the output of
`resultHandler` is exactly the arrived records with ids `0..g-1`, in that
order; the records left in `resCache` when the input ends are exactly the
arrived records with an id greater than `g`; and `resultHandler` still ends by
closing the ordered output, with those records undelivered. -/
theorem resultHandler_missing_id {α : Type} (S : SliceSort α) (arrivals : List (Result α))
    (g : Nat) (hnd : (arrivals.map Result.Id).Nodup) (hnn : ∀ r ∈ arrivals, 0 ≤ r.Id)
    (hg : (g : Int) ∉ arrivals.map Result.Id)
    (hlt : ∀ i : Nat, i < g → (i : Int) ∈ arrivals.map Result.Id) :
    (resultHandler S arrivals).ordResCh.map Result.Id = idsUpTo g
      ∧ (∀ r, r ∈ (resultHandler S arrivals).ordResCh ↔ r ∈ arrivals ∧ r.Id < (g : Int))
      ∧ (∀ r, r ∈ (resultHandler S arrivals).resCache ↔ r ∈ arrivals ∧ (g : Int) < r.Id)
      ∧ (resultHandler S arrivals).closed = true := by
  have inv := handlerInv_foldl S arrivals
  show (handlerAfter S arrivals).ordResCh.map Result.Id = idsUpTo g
      ∧ (∀ r, r ∈ (handlerAfter S arrivals).ordResCh ↔ r ∈ arrivals ∧ r.Id < (g : Int))
      ∧ (∀ r, r ∈ (handlerAfter S arrivals).resCache ↔ r ∈ arrivals ∧ (g : Int) < r.Id)
      ∧ true = true
  generalize handlerAfter S arrivals = st at inv
  obtain ⟨cursor, cache, out, closed⟩ := st
  have hids : out.map Result.Id = idsUpTo out.length := inv.ids
  have hcur : cursor = (out.length : Int) - 1 := inv.cursor
  have hsorted : cache.Pairwise (fun a b => a.Id ≤ b.Id) := inv.sorted
  have hstuck : ∀ r ∈ cache.head?, r.Id ≠ cursor + 1 := inv.stuck
  have hcons : (out ++ cache).Perm arrivals := inv.conserve
  have hp : (idsUpTo out.length ++ cache.map Result.Id).Perm (arrivals.map Result.Id) := by
    have := hcons.map Result.Id
    rwa [List.map_append, hids] at this
  have hdisj := (List.nodup_append.mp (hp.nodup_iff.mpr hnd)).2.2
  have hcache_ge : ∀ y ∈ cache, (out.length : Int) ≤ y.Id := by
    intro y hy
    have h0 : 0 ≤ y.Id := hnn y (hcons.subset (List.mem_append_right _ hy))
    have hni : y.Id ∉ idsUpTo out.length := fun hm => hdisj hm (List.mem_map_of_mem _ hy)
    rw [mem_idsUpTo] at hni
    omega
  have hle : out.length ≤ g := by
    by_contra hgt
    have hgm : (g : Int) ∈ idsUpTo out.length := by
      rw [mem_idsUpTo]
      omega
    exact hg (hp.subset (List.mem_append_left _ hgm))
  have hge : g ≤ out.length := by
    by_contra hlt2
    have hm : (out.length : Int) ∈ arrivals.map Result.Id := hlt out.length (by omega)
    rcases List.mem_append.mp (hp.symm.subset hm) with h1 | h1
    · rw [mem_idsUpTo] at h1
      omega
    · obtain ⟨y, hy, hyid⟩ := List.mem_map.mp h1
      cases cache with
      | nil => exact absurd hy (List.not_mem_nil y)
      | cons x xs =>
        have hxy : x.Id ≤ y.Id := by
          rcases List.mem_cons.mp hy with rfl | hy2
          · exact le_refl _
          · exact (List.pairwise_cons.mp hsorted).1 y hy2
        have hxge := hcache_ge x (List.mem_cons_self x xs)
        exact hstuck x (by simp) (by omega)
  have hm : out.length = g := le_antisymm hle hge
  rw [hm] at hids hcache_ge hdisj
  show out.map Result.Id = idsUpTo g
      ∧ (∀ r, r ∈ out ↔ r ∈ arrivals ∧ r.Id < (g : Int))
      ∧ (∀ r, r ∈ cache ↔ r ∈ arrivals ∧ (g : Int) < r.Id)
      ∧ true = true
  refine ⟨hids, ?_, ?_, rfl⟩
  · intro r
    constructor
    · intro hr
      have hrid : r.Id ∈ idsUpTo g := hids ▸ List.mem_map_of_mem _ hr
      exact ⟨hcons.subset (List.mem_append_left _ hr), (mem_idsUpTo.mp hrid).2⟩
    · rintro ⟨hr, hrlt⟩
      rcases List.mem_append.mp (hcons.symm.subset hr) with h1 | h1
      · exact h1
      · have := hcache_ge r h1
        omega
  · intro r
    constructor
    · intro hr
      have hmem : r ∈ arrivals := hcons.subset (List.mem_append_right _ hr)
      have h1 := hcache_ge r hr
      have hne : r.Id ≠ (g : Int) := fun he => hg (he ▸ List.mem_map_of_mem _ hmem)
      exact ⟨hmem, by omega⟩
    · rintro ⟨hr, hrgt⟩
      rcases List.mem_append.mp (hcons.symm.subset hr) with h1 | h1
      · have hrid : r.Id ∈ idsUpTo g := hids ▸ List.mem_map_of_mem _ h1
        have := (mem_idsUpTo.mp hrid).2
        omega
      · exact h1

theorem resultHandler_missing_id_witness :
    (([⟨3, 30⟩, ⟨1, 10⟩, ⟨0, 5⟩, ⟨4, 40⟩] : List (Result Nat)).map Result.Id).Nodup
      ∧ (∀ r ∈ ([⟨3, 30⟩, ⟨1, 10⟩, ⟨0, 5⟩, ⟨4, 40⟩] : List (Result Nat)), 0 ≤ r.Id)
      ∧ ((2 : Nat) : Int) ∉ ([⟨3, 30⟩, ⟨1, 10⟩, ⟨0, 5⟩, ⟨4, 40⟩] : List (Result Nat)).map Result.Id
      ∧ (∀ i : Nat, i < 2 →
          (i : Int) ∈ ([⟨3, 30⟩, ⟨1, 10⟩, ⟨0, 5⟩, ⟨4, 40⟩] : List (Result Nat)).map Result.Id)
      ∧ ((resultHandler (insertionSliceSort Nat)
              [⟨3, 30⟩, ⟨1, 10⟩, ⟨0, 5⟩, ⟨4, 40⟩]).ordResCh.map Result.Id = idsUpTo 2
        ∧ (∀ r, r ∈ (resultHandler (insertionSliceSort Nat)
              [⟨3, 30⟩, ⟨1, 10⟩, ⟨0, 5⟩, ⟨4, 40⟩]).ordResCh
            ↔ r ∈ ([⟨3, 30⟩, ⟨1, 10⟩, ⟨0, 5⟩, ⟨4, 40⟩] : List (Result Nat))
                ∧ r.Id < ((2 : Nat) : Int))
        ∧ (∀ r, r ∈ (resultHandler (insertionSliceSort Nat)
              [⟨3, 30⟩, ⟨1, 10⟩, ⟨0, 5⟩, ⟨4, 40⟩]).resCache
            ↔ r ∈ ([⟨3, 30⟩, ⟨1, 10⟩, ⟨0, 5⟩, ⟨4, 40⟩] : List (Result Nat))
                ∧ ((2 : Nat) : Int) < r.Id)
        ∧ (resultHandler (insertionSliceSort Nat)
              [⟨3, 30⟩, ⟨1, 10⟩, ⟨0, 5⟩, ⟨4, 40⟩]).closed = true) :=
  ⟨by decide, by decide, by decide, by decide,
    resultHandler_missing_id (insertionSliceSort Nat) _ 2 (by decide) (by decide) (by decide)
      (by decide)⟩

/-! ## A record in the buffer whose id is not above the cursor -/

theorem drain_blocked {α : Type} (cache : List (Result α)) (c : Int) (sent : List (Result α))
    (s : Result α) (hsorted : cache.Pairwise (fun a b => a.Id ≤ b.Id)) (hs : s ∈ cache)
    (hle : s.Id ≤ c) : drain c sent cache = (c, cache, sent) := by
  cases cache with
  | nil => exact absurd hs (List.not_mem_nil s)
  | cons x xs =>
    have hx : x.Id ≤ s.Id := by
      rcases List.mem_cons.mp hs with rfl | hs2
      · exact le_refl _
      · exact (List.pairwise_cons.mp hsorted).1 s hs2
    have hne : ¬ x.Id = c + 1 := by omega
    simp [drain, hne]

theorem handle_blocked {α : Type} (S : SliceSort α) (st : HandlerState α) (r s : Result α)
    (hsorted : st.resCache.Pairwise (fun a b => a.Id ≤ b.Id)) (hs : s ∈ st.resCache)
    (hle : s.Id ≤ st.cursor) :
    handle S st r
      = if st.cursor + 1 = r.Id then
          ⟨r.Id, st.resCache, st.ordResCh ++ [r], st.closed⟩
        else
          ⟨st.cursor, S.sortSlice (st.resCache ++ [r]), st.ordResCh, st.closed⟩ := by
  unfold handle
  split
  · rename_i hr
    rw [drain_blocked st.resCache r.Id (st.ordResCh ++ [r]) s hsorted hs (by omega)]
  · have hs2 : (S.sortSlice (st.resCache ++ [r])).Pairwise (fun a b => a.Id ≤ b.Id) :=
      (S.ordered _).imp (fun hab => Int.not_lt.mp hab)
    have hmem : s ∈ S.sortSlice (st.resCache ++ [r]) :=
      (S.perm _).symm.subset (List.mem_append_left _ hs)
    rw [drain_blocked _ st.cursor st.ordResCh s hs2 hmem hle]

theorem blocked_foldl {α : Type} (S : SliceSort α) (later : List (Result α))
    (st : HandlerState α) (s : Result α)
    (hsorted : st.resCache.Pairwise (fun a b => a.Id ≤ b.Id)) (hs : s ∈ st.resCache)
    (hle : s.Id ≤ st.cursor) :
    (later.foldl (handle S) st).resCache.Pairwise (fun a b => a.Id ≤ b.Id)
      ∧ (∀ x ∈ st.resCache, x ∈ (later.foldl (handle S) st).resCache)
      ∧ s.Id ≤ (later.foldl (handle S) st).cursor := by
  induction later generalizing st with
  | nil => exact ⟨hsorted, fun x hx => hx, hle⟩
  | cons r rest ih =>
    rw [List.foldl_cons]
    have hstep := handle_blocked S st r s hsorted hs hle
    by_cases hr : st.cursor + 1 = r.Id
    · rw [if_pos hr] at hstep
      have h1 := ih (handle S st r) (by rw [hstep]; exact hsorted) (by rw [hstep]; exact hs)
        (by rw [hstep]; show s.Id ≤ r.Id; omega)
      refine ⟨h1.1, fun x hx => h1.2.1 x (by rw [hstep]; exact hx), h1.2.2⟩
    · rw [if_neg hr] at hstep
      have hsub : ∀ x ∈ st.resCache, x ∈ S.sortSlice (st.resCache ++ [r]) := fun x hx =>
        (S.perm _).symm.subset (List.mem_append_left _ hx)
      have h1 := ih (handle S st r)
        (by rw [hstep]; exact (S.ordered _).imp (fun hab => Int.not_lt.mp hab))
        (by rw [hstep]; exact hsub s hs) (by rw [hstep]; exact hle)
      refine ⟨h1.1, fun x hx => h1.2.1 x (by rw [hstep]; exact hsub x hx), h1.2.2⟩

/-- C16 (stale record).  For every arrival sequence, once `resCache` holds a
record `s` whose id is not above `cursor` (a second copy of an id already
sent, for instance), the drain loop releases nothing any more: in every later
iteration either the arriving record has the id `cursor + 1` and is the only
record sent, the buffer being left as it is, or nothing is sent and the
arriving record is added to the buffer.  So every record that was in the
buffer stays in it. -/
theorem stale_record_blocks_drain {α : Type} (S : SliceSort α) (pre : List (Result α))
    (s : Result α) (hs : s ∈ (handlerAfter S pre).resCache)
    (hle : s.Id ≤ (handlerAfter S pre).cursor) (later : List (Result α)) (r : Result α) :
    (∀ x ∈ (handlerAfter S pre).resCache, x ∈ (handlerAfter S (pre ++ later)).resCache)
      ∧ s.Id ≤ (handlerAfter S (pre ++ later)).cursor
      ∧ handlerAfter S (pre ++ later ++ [r])
          = (if (handlerAfter S (pre ++ later)).cursor + 1 = r.Id then
              ⟨r.Id, (handlerAfter S (pre ++ later)).resCache,
                (handlerAfter S (pre ++ later)).ordResCh ++ [r],
                (handlerAfter S (pre ++ later)).closed⟩
            else
              ⟨(handlerAfter S (pre ++ later)).cursor,
                S.sortSlice ((handlerAfter S (pre ++ later)).resCache ++ [r]),
                (handlerAfter S (pre ++ later)).ordResCh,
                (handlerAfter S (pre ++ later)).closed⟩)
      ∧ (∀ x ∈ (handlerAfter S (pre ++ later)).resCache,
          x ∈ (handlerAfter S (pre ++ later ++ [r])).resCache) := by
  have hsorted := (handlerInv_foldl S pre).sorted
  have hb := blocked_foldl S later (handlerAfter S pre) s hsorted hs hle
  have hfold : handlerAfter S (pre ++ later) = later.foldl (handle S) (handlerAfter S pre) := by
    simp [handlerAfter, List.foldl_append]
  rw [← hfold] at hb
  have hstep := handle_blocked S (handlerAfter S (pre ++ later)) r s hb.1 (hb.2.1 s hs) hb.2.2
  rw [← handlerAfter_snoc] at hstep
  refine ⟨hb.2.1, hb.2.2, hstep, ?_⟩
  have hb2 := blocked_foldl S [r] (handlerAfter S (pre ++ later)) s hb.1 (hb.2.1 s hs) hb.2.2
  rw [List.foldl_cons, List.foldl_nil, ← handlerAfter_snoc] at hb2
  exact hb2.2.1

theorem stale_record_blocks_drain_witness :
    (⟨0, 1⟩ : Result Nat) ∈ (handlerAfter (insertionSliceSort Nat) [⟨0, 0⟩, ⟨0, 1⟩]).resCache
      ∧ (⟨0, 1⟩ : Result Nat).Id ≤ (handlerAfter (insertionSliceSort Nat) [⟨0, 0⟩, ⟨0, 1⟩]).cursor
      ∧ ((∀ x ∈ (handlerAfter (insertionSliceSort Nat) [⟨0, 0⟩, ⟨0, 1⟩]).resCache,
            x ∈ (handlerAfter (insertionSliceSort Nat)
              ([⟨0, 0⟩, ⟨0, 1⟩] ++ [⟨2, 20⟩])).resCache)
        ∧ (⟨0, 1⟩ : Result Nat).Id
            ≤ (handlerAfter (insertionSliceSort Nat) ([⟨0, 0⟩, ⟨0, 1⟩] ++ [⟨2, 20⟩])).cursor
        ∧ handlerAfter (insertionSliceSort Nat) ([⟨0, 0⟩, ⟨0, 1⟩] ++ [⟨2, 20⟩] ++ [⟨1, 10⟩])
            = (if (handlerAfter (insertionSliceSort Nat)
                    ([⟨0, 0⟩, ⟨0, 1⟩] ++ [⟨2, 20⟩])).cursor + 1 = (⟨1, 10⟩ : Result Nat).Id then
                ⟨(⟨1, 10⟩ : Result Nat).Id,
                  (handlerAfter (insertionSliceSort Nat)
                    ([⟨0, 0⟩, ⟨0, 1⟩] ++ [⟨2, 20⟩])).resCache,
                  (handlerAfter (insertionSliceSort Nat)
                    ([⟨0, 0⟩, ⟨0, 1⟩] ++ [⟨2, 20⟩])).ordResCh ++ [⟨1, 10⟩],
                  (handlerAfter (insertionSliceSort Nat)
                    ([⟨0, 0⟩, ⟨0, 1⟩] ++ [⟨2, 20⟩])).closed⟩
              else
                ⟨(handlerAfter (insertionSliceSort Nat)
                    ([⟨0, 0⟩, ⟨0, 1⟩] ++ [⟨2, 20⟩])).cursor,
                  (insertionSliceSort Nat).sortSlice
                    ((handlerAfter (insertionSliceSort Nat)
                      ([⟨0, 0⟩, ⟨0, 1⟩] ++ [⟨2, 20⟩])).resCache ++ [⟨1, 10⟩]),
                  (handlerAfter (insertionSliceSort Nat)
                    ([⟨0, 0⟩, ⟨0, 1⟩] ++ [⟨2, 20⟩])).ordResCh,
                  (handlerAfter (insertionSliceSort Nat)
                    ([⟨0, 0⟩, ⟨0, 1⟩] ++ [⟨2, 20⟩])).closed⟩)
        ∧ (∀ x ∈ (handlerAfter (insertionSliceSort Nat)
                ([⟨0, 0⟩, ⟨0, 1⟩] ++ [⟨2, 20⟩])).resCache,
            x ∈ (handlerAfter (insertionSliceSort Nat)
                ([⟨0, 0⟩, ⟨0, 1⟩] ++ [⟨2, 20⟩] ++ [⟨1, 10⟩])).resCache)) :=
  ⟨by decide, by decide,
    stale_record_blocks_drain (insertionSliceSort Nat) [⟨0, 0⟩, ⟨0, 1⟩] ⟨0, 1⟩ (by decide)
      (by decide) [⟨2, 20⟩] ⟨1, 10⟩⟩

/-- Two runs, with and without a second copy of id `0`: the arrivals
`0, 0, 2, 1` give the output ids `0, 1` and leave the ids `0` and `2` in the
buffer, whereas `0, 2, 1` give the output ids `0, 1, 2` and an empty buffer. -/
theorem stale_duplicate_runs :
    (resultHandler (insertionSliceSort Nat) [⟨0, 0⟩, ⟨0, 1⟩, ⟨2, 20⟩, ⟨1, 10⟩]).ordResCh.map
        Result.Id = [0, 1]
      ∧ (resultHandler (insertionSliceSort Nat)
          [⟨0, 0⟩, ⟨0, 1⟩, ⟨2, 20⟩, ⟨1, 10⟩]).resCache.map Result.Id = [0, 2]
      ∧ (resultHandler (insertionSliceSort Nat) [⟨0, 0⟩, ⟨2, 20⟩, ⟨1, 10⟩]).ordResCh.map
          Result.Id = [0, 1, 2]
      ∧ (resultHandler (insertionSliceSort Nat) [⟨0, 0⟩, ⟨2, 20⟩, ⟨1, 10⟩]).resCache = [] := by
  decide

end OrderedWorkerPool
